import Mathlib

/-!
Shallow embedding of the `lingebra` library (src/src/lib.rs, src/src/matrix.rs).

Matrix elements are modelled as rationals (`ℚ`): exact arithmetic with decidable
equality standing in for the source's `f64`.  No claim under verification
depends on IEEE-754 rounding, so the numeric field is kept exact.

Fallible operations (Rust panics: out-of-range indexing, failed assertions)
are modelled with `Except LinError`, with one error constructor per family of
the spec's error taxonomy (IndexError / ShapeError / PreconditionError).
-/

namespace Lingebra

/-- The spec's error taxonomy: shape errors (ragged input, dimension mismatch,
non-square transpose), index errors (out-of-range access), and the
`change_base` precondition error. -/
inductive LinError where
  | indexError : LinError
  | shapeError : LinError
  | preconditionError : LinError
deriving DecidableEq

/-- `vector_dot_product` from lib.rs: `a.iter().zip(b.iter()).map(|(x, y)| x * y).sum()`. -/
def vector_dot_product (a b : List ℚ) : ℚ :=
  ((a.zip b).map (fun p => p.1 * p.2)).sum

/-- `vector_sum` from lib.rs: `a.iter().zip(b.iter()).map(|(x, y)| x + y).collect()`. -/
def vector_sum (a b : List ℚ) : List ℚ :=
  (a.zip b).map (fun p => p.1 + p.2)

/-- The square of `vector_size` from lib.rs.  The source computes
`vector_size(b) = sqrt(Σ bᵢ²)` and only ever squares it again inside
`scalar_projection` (`vector_size(b).powi(2)`); since `sqrt(s)² = s` for the
nonnegative `s = Σ bᵢ²`, the squared norm is embedded directly (`ℚ` has no
square root). -/
def vector_size_sq (v : List ℚ) : ℚ :=
  (v.map (fun x => x ^ 2)).sum

/-- `scalar_projection` from lib.rs: `vector_dot_product(a, b) / vector_size(b).powi(2)`. -/
def scalar_projection (a b : List ℚ) : ℚ :=
  vector_dot_product a b / vector_size_sq b

/-- `orthogonal` from lib.rs: `vector_dot_product(a, b) == 0.0`. -/
def orthogonal (a b : List ℚ) : Bool :=
  decide (vector_dot_product a b = 0)

/-- `all_orthogonal` from lib.rs: true for zero or one vectors, otherwise the
head must be orthogonal to every later vector and the tail recursively
`all_orthogonal`. -/
def all_orthogonal : List (List ℚ) → Bool
  | [] => true
  | [_] => true
  | v :: rest => rest.all (fun x => orthogonal v x) && all_orthogonal rest

/-- `change_base` from lib.rs: asserts `all_orthogonal(base)` (precondition
error on failure), then maps `scalar_projection(v, ·)` over the basis. -/
def change_base (v : List ℚ) (base : List (List ℚ)) : Except LinError (List ℚ) :=
  if all_orthogonal base then
    .ok (base.map (fun x => scalar_projection v x))
  else
    .error .preconditionError

/-- The `Matrix` struct from matrix.rs: a grid (`Vec<Vec<f64>>`) plus its
declared dimensions `dim = (height, width)`. -/
structure Matrix where
  matrix : List (List ℚ)
  dim : Nat × Nat
deriving DecidableEq

/-- `Matrix::new` from matrix.rs.  The source first evaluates
`matrix[0].len()` — an index-out-of-bounds panic on empty input — and then
panics with a shape error if any row's length differs from the first row's. -/
def Matrix.new : List (List ℚ) → Except LinError Matrix
  | [] => .error .indexError
  | first :: rest =>
    if (first :: rest).all (fun v => v.length == first.length) then
      .ok ⟨first :: rest, ((first :: rest).length, first.length)⟩
    else
      .error .shapeError

/-- `Matrix::row_vector` from matrix.rs. -/
def Matrix.row_vector (v : List ℚ) : Matrix :=
  ⟨[v], (1, v.length)⟩

/-- `Matrix::column_vector` from matrix.rs: one singleton row per element. -/
def Matrix.column_vector (v : List ℚ) : Matrix :=
  ⟨v.map (fun x => [x]), (v.length, 1)⟩

/-- `Matrix::zeroes` from matrix.rs. -/
def Matrix.zeroes (height width : Nat) : Matrix :=
  ⟨List.replicate height (List.replicate width (0 : ℚ)), (height, width)⟩

/-- `Matrix::ones` from matrix.rs. -/
def Matrix.ones (height width : Nat) : Matrix :=
  ⟨List.replicate height (List.replicate width (1 : ℚ)), (height, width)⟩

/-- `Matrix::identity` from matrix.rs: row `x` is a zero row of length `size`
with position `x` set to `1`. -/
def Matrix.identity (size : Nat) : Matrix :=
  ⟨(List.range size).map (fun x => (List.replicate size (0 : ℚ)).set x 1), (size, size)⟩

/-- Helper for `Matrix::col`: collect entry `x` of every row in row order;
`none` models the index-out-of-bounds panic of `r[x]` on a too-short row. -/
def getCol : List (List ℚ) → Nat → Option (List ℚ)
  | [], _ => some []
  | r :: rs, x =>
    match r[x]? with
    | none => none
    | some v =>
      match getCol rs x with
      | none => none
      | some rest => some (v :: rest)

/-- `Matrix::col` from matrix.rs: `self.matrix.iter().map(|r| r[x]).collect()`. -/
def Matrix.col (m : Matrix) (x : Nat) : Except LinError (List ℚ) :=
  match getCol m.matrix x with
  | some l => .ok l
  | none => .error .indexError

/-- The column-collecting loop of `Matrix::transpose`: push `self.col(i)` for
`i in 0..n`, aborting at the first index panic. -/
def Matrix.colsUpTo (m : Matrix) : Nat → Except LinError (List (List ℚ))
  | 0 => .ok []
  | n + 1 =>
    match m.colsUpTo n with
    | .error e => .error e
    | .ok init =>
      match m.col n with
      | .error e => .error e
      | .ok c => .ok (init ++ [c])

/-- `Matrix::transpose` from matrix.rs: asserts `dim.0 == dim.1` (shape error
otherwise), collects `col(i)` for `i in 0..dim.0`, and feeds the result to
`Matrix::new`. -/
def Matrix.transpose (m : Matrix) : Except LinError Matrix :=
  if m.dim.1 = m.dim.2 then
    match m.colsUpTo m.dim.1 with
    | .ok cols => Matrix.new cols
    | .error e => .error e
  else
    .error .shapeError

/-- The `PartialEq` impl for `Matrix` from matrix.rs: `self.matrix == other.matrix`
(grid comparison only; the `dim` field is not consulted). -/
def Matrix.beq (a b : Matrix) : Bool :=
  decide (a.matrix = b.matrix)

/-- The `Add` impl for `&Matrix` from matrix.rs: asserts equal `dim`s, fills a
fresh `dim.0 × dim.1` grid with `self[x][y] + other[x][y]`, and feeds it to
`Matrix::new`.  The in-range reads `self.matrix[x][y]` are rendered with
`getD`; for the well-formed matrices the claims range over, every read is in
bounds, so the defaults are never consulted. -/
def Matrix.add (a b : Matrix) : Except LinError Matrix :=
  if a.dim = b.dim then
    Matrix.new ((List.range a.dim.1).map (fun x =>
      (List.range a.dim.2).map (fun y =>
        (a.matrix.getD x []).getD y 0 + (b.matrix.getD x []).getD y 0)))
  else
    .error .shapeError

/-- The `Sub` impl for `&Matrix` from matrix.rs, structured exactly like `Add`
with element-wise subtraction. -/
def Matrix.sub (a b : Matrix) : Except LinError Matrix :=
  if a.dim = b.dim then
    Matrix.new ((List.range a.dim.1).map (fun x =>
      (List.range a.dim.2).map (fun y =>
        (a.matrix.getD x []).getD y 0 - (b.matrix.getD x []).getD y 0)))
  else
    .error .shapeError

/-- The `Mul<&Vec<f64>>` impl for `&Matrix` from matrix.rs: asserts
`dim.1 == rhs.len()` (shape error otherwise), then maps every row to the sum
of the zipped products with `rhs`. -/
def Matrix.mulVec (m : Matrix) (v : List ℚ) : Except LinError (List ℚ) :=
  if m.dim.2 = v.length then
    .ok (m.matrix.map (fun x => ((x.zip v).map (fun p => p.1 * p.2)).sum))
  else
    .error .shapeError

/-- Well-formedness of a `Matrix` value: the stored dimensions describe the
grid (height = number of rows, every row of length = width).  Every value the
library's constructors produce satisfies this. -/
def Matrix.WF (m : Matrix) : Prop :=
  m.matrix.length = m.dim.1 ∧ ∀ r ∈ m.matrix, r.length = m.dim.2

instance (m : Matrix) : Decidable m.WF := by
  unfold Matrix.WF
  infer_instance

/-! ### Helper lemmas -/

theorem getD_of_lt {α : Type} (l : List α) (i : Nat) (d : α) (h : i < l.length) :
    l.getD i d = l[i] := by
  simp [List.getD_eq_getElem?_getD, List.getElem?_eq_getElem h]

theorem getD_map_of_lt {α β : Type} (l : List α) (f : α → β) (i : Nat) (d : β) (d' : α)
    (h : i < l.length) : (l.map f).getD i d = f (l.getD i d') := by
  rw [getD_of_lt (l.map f) i d (by simpa using h), getD_of_lt l i d' h, List.getElem_map]

theorem range_map_getD {α : Type} (l : List α) (d : α) (n : Nat) (h : l.length = n) :
    (List.range n).map (fun i => l.getD i d) = l := by
  subst h
  apply List.ext_getElem
  · simp
  · intro i h1 h2
    simp only [List.getElem_map, List.getElem_range]
    exact getD_of_lt l i d h2

theorem new_ok_of (first : List ℚ) (rest : List (List ℚ))
    (h : ∀ r ∈ first :: rest, r.length = first.length) :
    Matrix.new (first :: rest) =
      .ok ⟨first :: rest, ((first :: rest).length, first.length)⟩ := by
  simp only [Matrix.new]
  rw [if_pos]
  rw [List.all_eq_true]
  intro r hr
  exact Nat.beq_eq_true_eq _ _ ▸ (by simpa using h r hr)

theorem new_ok_of_ne (rows : List (List ℚ)) (hne : rows ≠ [])
    (hall : ∀ r ∈ rows, r.length = (rows.headD []).length) :
    Matrix.new rows = .ok ⟨rows, (rows.length, (rows.headD []).length)⟩ := by
  cases rows with
  | nil => exact absurd rfl hne
  | cons f r => simpa using new_ok_of f r (by simpa using hall)

theorem new_range_map (n : Nat) (rowf : Nat → List ℚ) (w : Nat)
    (hrow : ∀ i, (rowf i).length = w) :
    Matrix.new ((List.range n).map rowf) =
      if 1 ≤ n then .ok ⟨(List.range n).map rowf, (n, w)⟩
      else .error .indexError := by
  cases n with
  | zero => simp [Matrix.new]
  | succ k =>
    rw [if_pos (Nat.succ_le_succ (Nat.zero_le k))]
    have hne : (List.range (k + 1)).map rowf ≠ [] :=
      List.ne_nil_of_length_pos (by simp)
    have hmem : ∀ r ∈ (List.range (k + 1)).map rowf, r.length = w := by
      intro r hr
      obtain ⟨i, _, rfl⟩ := List.mem_map.mp hr
      exact hrow i
    have hhead : (((List.range (k + 1)).map rowf).headD []).length = w := by
      rw [List.range_succ_eq_map, List.map_cons, List.headD_cons]
      exact hrow 0
    rw [new_ok_of_ne _ hne (fun r hr => by rw [hmem r hr, hhead])]
    have hdims : (((List.range (k + 1)).map rowf).length,
        (((List.range (k + 1)).map rowf).headD []).length) = (k + 1, w) := by
      rw [hhead]
      simp
    rw [hdims]

theorem getCol_eq (g : List (List ℚ)) (w x : Nat) (hw : ∀ r ∈ g, r.length = w)
    (hx : x < w) : getCol g x = some (g.map (fun r => r.getD x 0)) := by
  induction g with
  | nil => rfl
  | cons r rs ih =>
    have hr : x < r.length := by
      rw [hw r (List.mem_cons_self r rs)]
      exact hx
    simp only [getCol, List.getElem?_eq_getElem hr,
      ih (fun q hq => hw q (List.mem_cons_of_mem r hq)), List.map_cons]
    rw [getD_of_lt r x 0 hr]

theorem colsUpTo_eq (m : Matrix) (hw : ∀ r ∈ m.matrix, r.length = m.dim.2) (n : Nat)
    (hn : n ≤ m.dim.2) :
    m.colsUpTo n = .ok ((List.range n).map (fun i => m.matrix.map (fun r => r.getD i 0))) := by
  induction n with
  | zero => rfl
  | succ k ih =>
    have hcol : m.col k = .ok (m.matrix.map (fun r => r.getD k 0)) := by
      unfold Matrix.col
      rw [getCol_eq m.matrix m.dim.2 k hw (Nat.lt_of_succ_le hn)]
    simp only [Matrix.colsUpTo, ih (Nat.le_of_succ_le hn), hcol]
    rw [List.range_succ, List.map_append, List.map_singleton]

theorem transpose_eq (m : Matrix) (hm : m.WF) (hsq : m.dim.1 = m.dim.2) :
    m.transpose =
      if 1 ≤ m.dim.1 then
        .ok ⟨(List.range m.dim.1).map (fun i => m.matrix.map (fun r => r.getD i 0)),
          (m.dim.1, m.dim.1)⟩
      else .error .indexError := by
  unfold Matrix.transpose
  rw [if_pos hsq, colsUpTo_eq m hm.2 m.dim.1 (le_of_eq hsq)]
  exact new_range_map m.dim.1 _ m.dim.1 (fun i => by simp [hm.1])

/-! ### C10: `Matrix::new` on the empty list -/

/-- C10: `Matrix::new` applied to an empty sequence of rows indexes the first
row before any validation, so it fails with an index-out-of-bounds error, not
the ragged-rows shape error; in the embedding `new []` is an error, not a
matrix. -/
theorem new_nil_index_error :
    Matrix.new ([] : List (List ℚ)) = .error .indexError ∧
    LinError.indexError ≠ LinError.shapeError :=
  ⟨rfl, by decide⟩

/-! ### C4: `Matrix::new` on non-empty input -/

/-- C4: for every non-empty list of rows, `Matrix::new` succeeds iff every
row's length equals the first row's length; on success the grid is exactly the
input (no truncation or padding) and the dimensions are
(row count, first-row length). -/
theorem new_spec (rows : List (List ℚ)) (hne : rows ≠ []) :
    ((∃ m, Matrix.new rows = .ok m) ↔ ∀ r ∈ rows, r.length = (rows.headD []).length) ∧
    ∀ m, Matrix.new rows = .ok m →
      m.matrix = rows ∧ m.dim = (rows.length, (rows.headD []).length) := by
  cases rows with
  | nil => exact absurd rfl hne
  | cons first rest =>
    simp only [List.headD_cons]
    constructor
    · constructor
      · rintro ⟨m, hm⟩
        simp only [Matrix.new] at hm
        split_ifs at hm with hc
        intro r hr
        simpa using List.all_eq_true.mp hc r hr
      · intro hall
        exact ⟨_, new_ok_of first rest hall⟩
    · intro m hm
      simp only [Matrix.new] at hm
      split_ifs at hm with hc
      cases hm
      exact ⟨rfl, rfl⟩

/-- Witness for C4 at a concrete rectangular input. -/
theorem new_spec_witness :
    ([[1, 2], [3, 4]] : List (List ℚ)) ≠ [] ∧
    (((∃ m, Matrix.new [[1, 2], [3, 4]] = .ok m) ↔
        ∀ r ∈ ([[1, 2], [3, 4]] : List (List ℚ)),
          r.length = (([[1, 2], [3, 4]] : List (List ℚ)).headD []).length) ∧
      ∀ m, Matrix.new [[1, 2], [3, 4]] = .ok m →
        m.matrix = [[1, 2], [3, 4]] ∧
        m.dim = (([[1, 2], [3, 4]] : List (List ℚ)).length,
          (([[1, 2], [3, 4]] : List (List ℚ)).headD []).length)) :=
  ⟨by decide, new_spec [[1, 2], [3, 4]] (by decide)⟩

/-! ### C7: zip-truncation of the free vector functions -/

/-- C7: `vector_dot_product` sums products of element pairs only up to the
shorter input's length, and `vector_sum` returns the element-wise sums
truncated to the shorter input's length; both are total (no length-mismatch
error). -/
theorem vector_ops_truncate (a b : List ℚ) :
    vector_dot_product a b =
      ((List.range (min a.length b.length)).map (fun i => a.getD i 0 * b.getD i 0)).sum ∧
    (vector_sum a b).length = min a.length b.length ∧
    ∀ i, i < min a.length b.length →
      (vector_sum a b).getD i 0 = a.getD i 0 + b.getD i 0 := by
  refine ⟨?_, ?_, ?_⟩
  · apply congrArg List.sum
    apply List.ext_getElem
    · simp [List.length_zip]
    · intro i h1 h2
      have hab : i < min a.length b.length := by simpa [List.length_zip] using h1
      have ha : i < a.length := lt_of_lt_of_le hab (Nat.min_le_left _ _)
      have hb : i < b.length := lt_of_lt_of_le hab (Nat.min_le_right _ _)
      simp only [List.getElem_map, List.getElem_range, List.getElem_zip]
      rw [getD_of_lt a i 0 ha, getD_of_lt b i 0 hb]
  · simp [vector_sum, List.length_zip]
  · intro i hi
    have hz : i < (a.zip b).length := by simpa [List.length_zip] using hi
    have ha : i < a.length := lt_of_lt_of_le hi (Nat.min_le_left _ _)
    have hb : i < b.length := lt_of_lt_of_le hi (Nat.min_le_right _ _)
    rw [vector_sum, getD_map_of_lt _ _ i 0 (0, 0) hz, getD_of_lt _ i (0, 0) hz,
      List.getElem_zip, getD_of_lt a i 0 ha, getD_of_lt b i 0 hb]

/-- Witness for C7 at concrete vectors of different lengths. -/
theorem vector_ops_truncate_witness :
    vector_dot_product [1, 2, 3] [10, 20] =
      ((List.range (min ([1, 2, 3] : List ℚ).length ([10, 20] : List ℚ).length)).map
        (fun i => ([1, 2, 3] : List ℚ).getD i 0 * ([10, 20] : List ℚ).getD i 0)).sum ∧
    (vector_sum [1, 2, 3] [10, 20]).length =
      min ([1, 2, 3] : List ℚ).length ([10, 20] : List ℚ).length ∧
    ∀ i, i < min ([1, 2, 3] : List ℚ).length ([10, 20] : List ℚ).length →
      (vector_sum [1, 2, 3] [10, 20]).getD i 0 =
        ([1, 2, 3] : List ℚ).getD i 0 + ([10, 20] : List ℚ).getD i 0 :=
  vector_ops_truncate [1, 2, 3] [10, 20]

/-! ### C8: `change_base` precondition and result -/

/-- C8: `change_base(v, base)` fails exactly when `all_orthogonal(base)` does
not hold; when it succeeds it returns, in basis order, the scalar projection
of `v` onto each basis vector. -/
theorem change_base_spec (v : List ℚ) (base : List (List ℚ)) :
    ((∃ r, change_base v base = .ok r) ↔ all_orthogonal base = true) ∧
    ∀ r, change_base v base = .ok r →
      r.length = base.length ∧
      ∀ i, i < base.length → r.getD i 0 = scalar_projection v (base.getD i []) := by
  unfold change_base
  split_ifs with h
  · refine ⟨⟨fun _ => h, fun _ => ⟨_, rfl⟩⟩, ?_⟩
    intro r hr
    cases hr
    refine ⟨by simp, ?_⟩
    intro i hi
    exact getD_map_of_lt base (fun x => scalar_projection v x) i 0 [] hi
  · constructor
    · constructor
      · rintro ⟨r, hr⟩
        cases hr
      · intro hc
        exact absurd hc h
    · intro r hr
      cases hr

/-- Witness for C8 at a concrete vector and basis. -/
theorem change_base_spec_witness :
    ((∃ r, change_base [3, 4] [[1, 0], [0, 2]] = .ok r) ↔
      all_orthogonal [[1, 0], [0, 2]] = true) ∧
    ∀ r, change_base [3, 4] [[1, 0], [0, 2]] = .ok r →
      r.length = ([[1, 0], [0, 2]] : List (List ℚ)).length ∧
      ∀ i, i < ([[1, 0], [0, 2]] : List (List ℚ)).length →
        r.getD i 0 = scalar_projection [3, 4] (([[1, 0], [0, 2]] : List (List ℚ)).getD i []) :=
  change_base_spec [3, 4] [[1, 0], [0, 2]]

/-! ### C1: matrix × vector multiplication -/

/-- C1: for every well-formed matrix `M` and vector `v`, `&M * &v` fails
exactly when `M`'s width differs from `v`'s length; on success the result has
length `M.height` and its `i`-th element is the dot product of row `i` of `M`
with `v`. -/
theorem mulVec_spec (m : Matrix) (v : List ℚ) (hm : m.WF) :
    ((∃ r, m.mulVec v = .ok r) ↔ m.dim.2 = v.length) ∧
    ∀ r, m.mulVec v = .ok r →
      r.length = m.dim.1 ∧
      ∀ i, i < r.length → r.getD i 0 = vector_dot_product (m.matrix.getD i []) v := by
  unfold Matrix.mulVec
  split_ifs with h
  · refine ⟨⟨fun _ => h, fun _ => ⟨_, rfl⟩⟩, ?_⟩
    intro r hr
    cases hr
    refine ⟨by simpa using hm.1, ?_⟩
    intro i hi
    have hi' : i < m.matrix.length := by simpa using hi
    rw [getD_map_of_lt m.matrix _ i 0 [] hi']
    rfl
  · constructor
    · constructor
      · rintro ⟨r, hr⟩
        cases hr
      · intro hc
        exact absurd hc h
    · intro r hr
      cases hr

/-- Witness for C1 at a concrete matrix and vector of matching width. -/
theorem mulVec_spec_witness :
    (Matrix.row_vector [1, 2]).WF ∧
    (((∃ r, (Matrix.row_vector [1, 2]).mulVec [3, 4] = .ok r) ↔
        (Matrix.row_vector [1, 2]).dim.2 = ([3, 4] : List ℚ).length) ∧
      ∀ r, (Matrix.row_vector [1, 2]).mulVec [3, 4] = .ok r →
        r.length = (Matrix.row_vector [1, 2]).dim.1 ∧
        ∀ i, i < r.length →
          r.getD i 0 =
            vector_dot_product ((Matrix.row_vector [1, 2]).matrix.getD i []) [3, 4]) :=
  ⟨by decide, mulVec_spec (Matrix.row_vector [1, 2]) [3, 4] (by decide)⟩

/-! ### C2: transpose precondition and elements -/

/-- C2 counterexample: the 0×0 matrix is square (`height = width`), yet
`transpose` fails, because the collected column list is empty and
`Matrix::new` panics on it; so "fails iff not square" is false as stated. -/
theorem transpose_square_zero_cex :
    (Matrix.zeroes 0 0).dim.1 = (Matrix.zeroes 0 0).dim.2 ∧
    (Matrix.zeroes 0 0).transpose = .error .indexError :=
  ⟨rfl, rfl⟩

/-- C2 (amended): for a well-formed matrix `M`, `transpose(M)` succeeds iff
`M` is square and has at least one row (the square 0×0 matrix fails with an
index error via `Matrix::new` on the empty column list); on success, entry
`(i, j)` of the result equals entry `(j, i)` of `M` for all `i, j < n`. -/
theorem transpose_spec (m : Matrix) (hm : m.WF) :
    ((∃ t, m.transpose = .ok t) ↔ m.dim.1 = m.dim.2 ∧ 1 ≤ m.dim.1) ∧
    ∀ t, m.transpose = .ok t →
      ∀ i j, i < m.dim.1 → j < m.dim.1 →
        (t.matrix.getD i []).getD j 0 = (m.matrix.getD j []).getD i 0 := by
  by_cases hsq : m.dim.1 = m.dim.2
  · by_cases h1 : 1 ≤ m.dim.1
    · rw [transpose_eq m hm hsq, if_pos h1]
      constructor
      · exact ⟨fun _ => ⟨hsq, h1⟩, fun _ => ⟨_, rfl⟩⟩
      · intro t ht i j hi hj
        cases ht
        rw [getD_map_of_lt (List.range m.dim.1) _ i [] 0 (by simpa using hi)]
        have hri : (List.range m.dim.1).getD i 0 = i := by
          rw [getD_of_lt _ _ _ (by simpa using hi), List.getElem_range]
        rw [hri]
        have hj' : j < m.matrix.length := by
          rw [hm.1]
          exact hj
        rw [getD_map_of_lt m.matrix _ j 0 [] hj']
    · rw [transpose_eq m hm hsq, if_neg h1]
      refine ⟨⟨?_, ?_⟩, ?_⟩
      · rintro ⟨t, ht⟩
        cases ht
      · rintro ⟨-, hc⟩
        exact absurd hc h1
      · intro t ht
        cases ht
  · unfold Matrix.transpose
    rw [if_neg hsq]
    refine ⟨⟨?_, ?_⟩, ?_⟩
    · rintro ⟨t, ht⟩
      cases ht
    · rintro ⟨hc, -⟩
      exact absurd hc hsq
    · intro t ht
      cases ht

/-- Witness for C2 (amended) at a concrete square matrix. -/
theorem transpose_spec_witness :
    (Matrix.identity 2).WF ∧
    (((∃ t, (Matrix.identity 2).transpose = .ok t) ↔
        (Matrix.identity 2).dim.1 = (Matrix.identity 2).dim.2 ∧
          1 ≤ (Matrix.identity 2).dim.1) ∧
      ∀ t, (Matrix.identity 2).transpose = .ok t →
        ∀ i j, i < (Matrix.identity 2).dim.1 → j < (Matrix.identity 2).dim.1 →
          (t.matrix.getD i []).getD j 0 =
            ((Matrix.identity 2).matrix.getD j []).getD i 0) :=
  ⟨by decide, transpose_spec (Matrix.identity 2) (by decide)⟩

/-! ### C9: transpose is an involution on square matrices -/

/-- C9 counterexample: the 0×0 matrix is square, yet already the first
`transpose` fails (index error from `Matrix::new` on the empty column list),
so transposing twice does not return a matrix equal to the original. -/
theorem transpose_involution_cex :
    (Matrix.zeroes 0 0).dim.1 = (Matrix.zeroes 0 0).dim.2 ∧
    ((Matrix.zeroes 0 0).transpose.bind Matrix.transpose) = .error .indexError :=
  ⟨rfl, rfl⟩

/-- C9 (amended): for every well-formed square matrix with at least one row,
both transposes succeed and the double transpose is equal (in the sense of
the `PartialEq` impl) to the original matrix. -/
theorem transpose_transpose_beq (m : Matrix) (hm : m.WF) (hsq : m.dim.1 = m.dim.2)
    (h1 : 1 ≤ m.dim.1) :
    ∃ t u, m.transpose = .ok t ∧ t.transpose = .ok u ∧ u.beq m = true := by
  have ht := transpose_eq m hm hsq
  rw [if_pos h1] at ht
  have htwf : (⟨(List.range m.dim.1).map (fun i => m.matrix.map (fun r => r.getD i 0)),
      (m.dim.1, m.dim.1)⟩ : Matrix).WF := by
    constructor
    · simp
    · intro r hr
      obtain ⟨i, -, rfl⟩ := List.mem_map.mp hr
      simpa using hm.1
  have hu := transpose_eq _ htwf rfl
  rw [if_pos h1] at hu
  refine ⟨_, _, ht, hu, ?_⟩
  simp only [Matrix.beq, decide_eq_true_eq]
  apply List.ext_getElem
  · simp [hm.1]
  · intro j hU hM
    simp only [List.getElem_map, List.getElem_range, List.map_map]
    have hMlen : m.matrix.length = m.dim.1 := hm.1
    have hj : j < m.dim.1 := by
      rw [← hMlen]
      exact hM
    apply List.ext_getElem
    · have : m.matrix[j].length = m.dim.2 := hm.2 _ (List.getElem_mem hM)
      simp [this, hsq]
    · intro i h1i h2i
      simp only [List.getElem_map, List.getElem_range, Function.comp]
      have hj' : j < m.matrix.length := hM
      rw [getD_map_of_lt m.matrix _ j 0 [] hj', getD_of_lt m.matrix j [] hj',
        getD_of_lt m.matrix[j] i 0 h2i]

/-- Witness for C9 (amended) at a concrete square matrix. -/
theorem transpose_transpose_beq_witness :
    (Matrix.ones 2 2).WF ∧ (Matrix.ones 2 2).dim.1 = (Matrix.ones 2 2).dim.2 ∧
    1 ≤ (Matrix.ones 2 2).dim.1 ∧
    ∃ t u, (Matrix.ones 2 2).transpose = .ok t ∧ t.transpose = .ok u ∧
      u.beq (Matrix.ones 2 2) = true :=
  ⟨by decide, by decide, by decide,
    transpose_transpose_beq (Matrix.ones 2 2) (by decide) (by decide) (by decide)⟩

/-! ### C3: matrix equality -/

/-- C3 counterexample: two 0-height matrices with different widths have equal
(empty) grids, so the `PartialEq` impl — which compares only the grids —
declares them equal even though their dimensions differ. -/
theorem beq_ignores_dim_cex :
    (Matrix.zeroes 0 1).beq (Matrix.zeroes 0 2) = true ∧
    (Matrix.zeroes 0 1).dim ≠ (Matrix.zeroes 0 2).dim := by
  decide

/-- C3 (amended): for well-formed matrices with at least one row, `A == B`
holds iff the dimensions agree and every corresponding pair of elements is
exactly equal; for 0-height matrices the comparison sees only the (empty)
grids and ignores the stored dimensions. -/
theorem beq_spec (a b : Matrix) (ha : a.WF) (hb : b.WF) (h1 : 1 ≤ a.dim.1) :
    a.beq b = true ↔
      a.dim = b.dim ∧ ∀ i j, i < a.dim.1 → j < a.dim.2 →
        (a.matrix.getD i []).getD j 0 = (b.matrix.getD i []).getD j 0 := by
  simp only [Matrix.beq, decide_eq_true_eq]
  constructor
  · intro hg
    have hh : a.dim.1 = b.dim.1 := by rw [← ha.1, ← hb.1, hg]
    have hpos : 0 < a.matrix.length := by
      rw [ha.1]
      exact h1
    have hmem : a.matrix[0] ∈ a.matrix := List.getElem_mem hpos
    have hwa : (a.matrix[0]).length = a.dim.2 := ha.2 _ hmem
    have hwb : (a.matrix[0]).length = b.dim.2 := hb.2 _ (hg ▸ hmem)
    refine ⟨Prod.ext_iff.mpr ⟨hh, by rw [← hwa, hwb]⟩, ?_⟩
    intro i j hi hj
    rw [hg]
  · rintro ⟨hdim, helem⟩
    apply List.ext_getElem
    · rw [ha.1, hb.1, hdim]
    · intro i hia hib
      apply List.ext_getElem
      · rw [ha.2 _ (List.getElem_mem hia), hb.2 _ (List.getElem_mem hib), hdim]
      · intro j hja hjb
        have hi' : i < a.dim.1 := by
          rw [← ha.1]
          exact hia
        have hj' : j < a.dim.2 := by
          rw [← ha.2 _ (List.getElem_mem hia)]
          exact hja
        have hij := helem i j hi' hj'
        rw [getD_of_lt a.matrix i [] hia, getD_of_lt b.matrix i [] hib,
          getD_of_lt _ j 0 hja, getD_of_lt _ j 0 hjb] at hij
        exact hij

/-- Witness for C3 (amended) at two concrete equal 1×1 matrices. -/
theorem beq_spec_witness :
    (Matrix.identity 1).WF ∧ (Matrix.ones 1 1).WF ∧ 1 ≤ (Matrix.identity 1).dim.1 ∧
    ((Matrix.identity 1).beq (Matrix.ones 1 1) = true ↔
      (Matrix.identity 1).dim = (Matrix.ones 1 1).dim ∧
        ∀ i j, i < (Matrix.identity 1).dim.1 → j < (Matrix.identity 1).dim.2 →
          ((Matrix.identity 1).matrix.getD i []).getD j 0 =
            ((Matrix.ones 1 1).matrix.getD i []).getD j 0) :=
  ⟨by decide, by decide, by decide,
    beq_spec (Matrix.identity 1) (Matrix.ones 1 1) (by decide) (by decide) (by decide)⟩

/-! ### C5: matrix addition and subtraction -/

theorem new_grid_spec (hgt wdt : Nat) (e : Nat → Nat → ℚ) :
    ((∃ c, Matrix.new ((List.range hgt).map (fun x =>
        (List.range wdt).map (e x))) = .ok c) ↔ 1 ≤ hgt) ∧
    ∀ c, Matrix.new ((List.range hgt).map (fun x => (List.range wdt).map (e x))) = .ok c →
      c.dim = (hgt, wdt) ∧
      ∀ i j, i < hgt → j < wdt → (c.matrix.getD i []).getD j 0 = e i j := by
  rw [new_range_map hgt _ wdt (fun x => by simp)]
  by_cases h1 : 1 ≤ hgt
  · rw [if_pos h1]
    refine ⟨⟨fun _ => h1, fun _ => ⟨_, rfl⟩⟩, ?_⟩
    intro c hc
    cases hc
    refine ⟨rfl, ?_⟩
    intro i j hi hj
    rw [getD_map_of_lt (List.range hgt) _ i [] 0 (by simpa using hi)]
    have hri : (List.range hgt).getD i 0 = i := by
      rw [getD_of_lt _ _ _ (by simpa using hi), List.getElem_range]
    rw [hri, getD_map_of_lt (List.range wdt) _ j 0 0 (by simpa using hj)]
    have hrj : (List.range wdt).getD j 0 = j := by
      rw [getD_of_lt _ _ _ (by simpa using hj), List.getElem_range]
    rw [hrj]
  · rw [if_neg h1]
    refine ⟨⟨?_, fun hc => absurd hc h1⟩, ?_⟩
    · rintro ⟨c, hc⟩
      cases hc
    · intro c hc
      cases hc

/-- C5 counterexample: two matrices of equal dimensions (0, 1) for which both
`&A + &B` and `&A - &B` nevertheless fail — the freshly built result grid is
empty and `Matrix::new` panics on it — refuting "fails iff the dimensions
differ". -/
theorem add_sub_same_dim_cex :
    (Matrix.zeroes 0 1).dim = (Matrix.zeroes 0 1).dim ∧
    (Matrix.zeroes 0 1).add (Matrix.zeroes 0 1) = .error .indexError ∧
    (Matrix.zeroes 0 1).sub (Matrix.zeroes 0 1) = .error .indexError :=
  ⟨rfl, rfl, rfl⟩

/-- C5 (amended): `&A + &B` and `&A - &B` succeed iff the dimensions agree and
the height is at least 1 (for 0-height operands the rebuilt grid is empty and
`Matrix::new` fails on it); on success the result has the operands' dimensions
and is element-wise sum / difference. -/
theorem add_sub_spec (a b : Matrix) :
    ((∃ c, a.add b = .ok c) ↔ a.dim = b.dim ∧ 1 ≤ a.dim.1) ∧
    ((∃ c, a.sub b = .ok c) ↔ a.dim = b.dim ∧ 1 ≤ a.dim.1) ∧
    (∀ c, a.add b = .ok c → c.dim = a.dim ∧
      ∀ i j, i < a.dim.1 → j < a.dim.2 →
        (c.matrix.getD i []).getD j 0 =
          (a.matrix.getD i []).getD j 0 + (b.matrix.getD i []).getD j 0) ∧
    (∀ c, a.sub b = .ok c → c.dim = a.dim ∧
      ∀ i j, i < a.dim.1 → j < a.dim.2 →
        (c.matrix.getD i []).getD j 0 =
          (a.matrix.getD i []).getD j 0 - (b.matrix.getD i []).getD j 0) := by
  unfold Matrix.add Matrix.sub
  by_cases hd : a.dim = b.dim
  · rw [if_pos hd, if_pos hd]
    have hadd := new_grid_spec a.dim.1 a.dim.2
      (fun x y => (a.matrix.getD x []).getD y 0 + (b.matrix.getD x []).getD y 0)
    have hsub := new_grid_spec a.dim.1 a.dim.2
      (fun x y => (a.matrix.getD x []).getD y 0 - (b.matrix.getD x []).getD y 0)
    refine ⟨?_, ?_, ?_, ?_⟩
    · exact ⟨fun h => ⟨hd, hadd.1.mp h⟩, fun h => hadd.1.mpr h.2⟩
    · exact ⟨fun h => ⟨hd, hsub.1.mp h⟩, fun h => hsub.1.mpr h.2⟩
    · intro c hc
      obtain ⟨hdim, helem⟩ := hadd.2 c hc
      refine ⟨?_, helem⟩
      rw [hdim]
    · intro c hc
      obtain ⟨hdim, helem⟩ := hsub.2 c hc
      refine ⟨?_, helem⟩
      rw [hdim]
  · rw [if_neg hd, if_neg hd]
    refine ⟨⟨?_, fun h => absurd h.1 hd⟩, ⟨?_, fun h => absurd h.1 hd⟩, ?_, ?_⟩
    · rintro ⟨c, hc⟩
      cases hc
    · rintro ⟨c, hc⟩
      cases hc
    · intro c hc
      cases hc
    · intro c hc
      cases hc

/-- Witness for C5 (amended) at two concrete 1×1 matrices. -/
theorem add_sub_spec_witness :
    ((∃ c, (Matrix.ones 1 1).add (Matrix.ones 1 1) = .ok c) ↔
      (Matrix.ones 1 1).dim = (Matrix.ones 1 1).dim ∧ 1 ≤ (Matrix.ones 1 1).dim.1) ∧
    ((∃ c, (Matrix.ones 1 1).sub (Matrix.ones 1 1) = .ok c) ↔
      (Matrix.ones 1 1).dim = (Matrix.ones 1 1).dim ∧ 1 ≤ (Matrix.ones 1 1).dim.1) ∧
    (∀ c, (Matrix.ones 1 1).add (Matrix.ones 1 1) = .ok c →
      c.dim = (Matrix.ones 1 1).dim ∧
      ∀ i j, i < (Matrix.ones 1 1).dim.1 → j < (Matrix.ones 1 1).dim.2 →
        (c.matrix.getD i []).getD j 0 =
          ((Matrix.ones 1 1).matrix.getD i []).getD j 0 +
            ((Matrix.ones 1 1).matrix.getD i []).getD j 0) ∧
    (∀ c, (Matrix.ones 1 1).sub (Matrix.ones 1 1) = .ok c →
      c.dim = (Matrix.ones 1 1).dim ∧
      ∀ i j, i < (Matrix.ones 1 1).dim.1 → j < (Matrix.ones 1 1).dim.2 →
        (c.matrix.getD i []).getD j 0 =
          ((Matrix.ones 1 1).matrix.getD i []).getD j 0 -
            ((Matrix.ones 1 1).matrix.getD i []).getD j 0) :=
  add_sub_spec (Matrix.ones 1 1) (Matrix.ones 1 1)

/-! ### C6: constructor invariants -/

/-- C6 counterexample: `Matrix::zeroes(0, 1)` is produced by a constructor yet
violates the claimed `h ≥ 1 ∧ w ≥ 1` invariant (its height is 0). -/
theorem constructors_positive_cex :
    ¬(1 ≤ (Matrix.zeroes 0 1).dim.1 ∧ 1 ≤ (Matrix.zeroes 0 1).dim.2) := by
  decide

/-- C6 (amended): every `Matrix` produced by any constructor is well-formed —
its height equals its number of rows and every row has exactly `w` elements —
but the claimed positivity `h ≥ 1 ∧ w ≥ 1` does not hold in general: the
constructors accept 0 sizes and empty input vectors. -/
theorem constructors_wf :
    (∀ rows m, Matrix.new rows = .ok m → m.WF) ∧
    (∀ v, (Matrix.row_vector v).WF) ∧
    (∀ v, (Matrix.column_vector v).WF) ∧
    (∀ hgt wdt, (Matrix.zeroes hgt wdt).WF) ∧
    (∀ hgt wdt, (Matrix.ones hgt wdt).WF) ∧
    (∀ n, (Matrix.identity n).WF) := by
  refine ⟨?_, ?_, ?_, ?_, ?_, ?_⟩
  · intro rows m hm
    cases rows with
    | nil => cases hm
    | cons f r =>
      simp only [Matrix.new] at hm
      split_ifs at hm with hc
      cases hm
      refine ⟨rfl, ?_⟩
      intro q hq
      simpa using List.all_eq_true.mp hc q hq
  · intro v
    refine ⟨rfl, ?_⟩
    intro r hr
    simp only [Matrix.row_vector, List.mem_singleton] at hr
    subst hr
    rfl
  · intro v
    refine ⟨by simp [Matrix.column_vector], ?_⟩
    intro r hr
    simp only [Matrix.column_vector] at hr ⊢
    obtain ⟨x, -, rfl⟩ := List.mem_map.mp hr
    rfl
  · intro hgt wdt
    refine ⟨by simp [Matrix.zeroes], ?_⟩
    intro r hr
    simp only [Matrix.zeroes] at hr ⊢
    rw [List.eq_of_mem_replicate hr]
    simp
  · intro hgt wdt
    refine ⟨by simp [Matrix.ones], ?_⟩
    intro r hr
    simp only [Matrix.ones] at hr ⊢
    rw [List.eq_of_mem_replicate hr]
    simp
  · intro n
    refine ⟨by simp [Matrix.identity], ?_⟩
    intro r hr
    simp only [Matrix.identity] at hr ⊢
    obtain ⟨x, -, rfl⟩ := List.mem_map.mp hr
    simp

/-- Witness for C6 (amended): the `new` conjunct applied at a concrete
successful construction, and a constructor conjunct at concrete sizes. -/
theorem constructors_wf_witness :
    (⟨[[1]], (1, 1)⟩ : Matrix).WF ∧ (Matrix.zeroes 2 3).WF :=
  ⟨constructors_wf.1 [[1]] ⟨[[1]], (1, 1)⟩ rfl, constructors_wf.2.2.2.1 2 3⟩

end Lingebra
